import Mathlib

/-!
Shallow embedding of `src/numpycpp.h`, a header library of matrix
operations over `Eigen::MatrixXf` (dense matrices of 32-bit floats,
column-major storage), together with proofs about it.

A matrix is modelled by its row count, its column count and a total
entry function; entries are modelled as exact rationals (every finite
float is a rational, and every numeric value appearing in this
development is exactly representable), so the float arithmetic of the
source is modelled by exact arithmetic.  Entries of the entry function
outside the matrix shape are never inspected.

Fallible operations return `Option Matrix`; `none` models an execution
that does not produce a well-defined result: an `eigen_assert` failure
(which aborts the process under the default build flags, and is
undefined behaviour with `NDEBUG`), an out-of-bounds read, or signed
overflow of an `int` loop counter.  The source library itself never
throws and defines no error values of any kind.

The source stores dimensions in `uint32_t` locals (`m1r`, `m1c`, ...),
so conversions from `Eigen::Index` truncate modulo `2 ^ 32` and all
arithmetic on those locals wraps modulo `2 ^ 32`; `wrap32` models this,
and `kron`, `block_diag2` and `block_diag3` carry guards collecting the
`eigen_assert`s that fire when a wrapped dimension disagrees with the
allocation or with a true operand shape.
-/

namespace Numpycpp

/-- A dense matrix: row count, column count and entry function.
Mirrors `Eigen::MatrixXf` as used by `numpycpp.h`; only `entry i j`
with `i < rows` and `j < cols` is meaningful. -/
structure Matrix where
  rows : Nat
  cols : Nat
  entry : Nat → Nat → ℚ

/-- Extensional matrix equality: same shape and the same entries at
every in-range position. -/
def Matrix.eqv (A B : Matrix) : Prop :=
  A.rows = B.rows ∧ A.cols = B.cols ∧
    ∀ i < A.rows, ∀ j < A.cols, A.entry i j = B.entry i j

theorem Matrix.eqv_refl (A : Matrix) : A.eqv A :=
  ⟨rfl, rfl, fun _ _ _ _ => rfl⟩

/-- The option `o` holds a matrix extensionally equal to `M`. -/
def eqvSome (o : Option Matrix) (M : Matrix) : Prop :=
  ∃ K, o = some K ∧ K.eqv M

/-- Build a matrix from a row-major list of rows; positions missing
from the list read as 0.  Used only to write down concrete matrices. -/
def ofRows (l : List (List ℚ)) (r c : Nat) : Matrix :=
  ⟨r, c, fun i j => (l.getD i []).getD j 0⟩

/-- `reshape` (numpycpp.h lines 24-33):
`Eigen::Map<Eigen::MatrixXf> rx(x.data(), r, c); return rx;`.
`x.data()` is the column-major buffer of `x`, so buffer index `k`
holds `x(k % rows, k / rows)`, and the map reads entry `(i, j)` of the
result from buffer index `j * r + i`.  The source performs no size
check whatsoever: when `r * c ≤ rows * cols` every read is in bounds
and a matrix is returned (silently dropping trailing data when `r * c`
is smaller); when `r * c > rows * cols` copying the map out reads past
the end of the buffer, which is undefined behaviour, modelled as
`none`. -/
def reshape (x : Matrix) (r c : Nat) : Option Matrix :=
  if r * c ≤ x.rows * x.cols then
    some ⟨r, c, fun i j => x.entry ((j * r + i) % x.rows) ((j * r + i) / x.rows)⟩
  else none

/-- `x.diagonal().asDiagonal()`: the square matrix carrying the
diagonal of `x` on its diagonal and zeros elsewhere. -/
def diagAsDiagonal (x : Matrix) : Matrix :=
  ⟨x.rows, x.rows, fun i j => if i = j then x.entry i i else 0⟩

/-- Entrywise difference, as `t - x` on same-shaped Eigen matrices. -/
def Matrix.sub (A B : Matrix) : Matrix :=
  ⟨A.rows, A.cols, fun i j => A.entry i j - B.entry i j⟩

/-- Eigen `.sum()`: the sum of all entries (Eigen's summation order is
unspecified; over exact arithmetic the order is irrelevant). -/
def Matrix.sumEntries (A : Matrix) : ℚ :=
  ∑ i in Finset.range A.rows, ∑ j in Finset.range A.cols, A.entry i j

/-- `isdiag` (numpycpp.h lines 48-64): returns `false` for non-square
input; otherwise builds `t = x.diagonal().asDiagonal()` and returns
`false` iff `std::abs((t - x).sum()) >= 0.00001`, else `true`.  The
literal `0.00001` is modelled as the exact rational `1 / 100000`. -/
def isdiag (x : Matrix) : Bool :=
  if x.cols ≠ x.rows then false
  else if 1 / 100000 ≤ |((diagAsDiagonal x).sub x).sumEntries| then false
  else true

/-- Eigen's two-block comma initializer `rm << a, b` filling an
`R × C` matrix `rm` (Eigen/src/Core/CommaInitializer.h).  The
constructor places `a` at `(0, 0)`, asserting that it fits; inserting
`b` opens a new block row iff the current column count equals `C` and
`b` is not a zero-column block of the current block height, asserting
that `b` fits and has the height of the current block row; the
`finished()` destructor asserts that the matrix was filled exactly.
Every `eigen_assert` failure is modelled as `none`. -/
def commaInit2 (R C : Nat) (a b : Matrix) : Option Matrix :=
  if a.rows ≤ R ∧ a.cols ≤ C then
    if a.cols = C ∧ (b.cols ≠ 0 ∨ b.rows ≠ a.rows) then
      if a.rows + b.rows ≤ R ∧ b.cols ≤ C ∧ a.rows + b.rows = R ∧ b.cols = C then
        some ⟨R, C, fun i j => if i < a.rows then a.entry i j else b.entry (i - a.rows) j⟩
      else none
    else
      if b.rows = a.rows ∧ a.cols + b.cols ≤ C ∧ a.rows = R ∧ a.cols + b.cols = C then
        some ⟨R, C, fun i j => if j < a.cols then a.entry i j else b.entry i (j - a.cols)⟩
      else none
  else none

/-- `vstack` (numpycpp.h lines 77-98): if the first operand has zero
rows return the second; else if the second has zero rows return the
first; else set `ncol` to the first operand's column count, falling
back to the second's when that is zero, allocate an
`(rows1 + rows2) × ncol` matrix and fill it with `rm << m1, m2`. -/
def vstack (m1 m2 : Matrix) : Option Matrix :=
  if m1.rows = 0 then some m2
  else if m2.rows = 0 then some m1
  else commaInit2 (m1.rows + m2.rows) (if m1.cols = 0 then m2.cols else m1.cols) m1 m2

/-- `hstack` (numpycpp.h lines 111-132): if the first operand has zero
columns return the second; else if the second has zero columns return
the first; else set `nrow` to the first operand's row count, falling
back to the second's when that is zero, allocate an
`nrow × (cols1 + cols2)` matrix and fill it with `rm << m1, m2`. -/
def hstack (m1 m2 : Matrix) : Option Matrix :=
  if m1.cols = 0 then some m2
  else if m2.cols = 0 then some m1
  else commaInit2 (if m1.rows = 0 then m2.rows else m1.rows) (m1.cols + m2.cols) m1 m2

/-- Truncation modulo `2 ^ 32`: the effect of storing an
`Eigen::Index` in a `uint32_t` local, and of `uint32_t` products and
sums, which wrap. -/
def wrap32 (n : Nat) : Nat := n % 2 ^ 32

/-- Binary `block_diag` (numpycpp.h lines 147-162).  The locals
`m1r, m1c, m2r, m2c` are `uint32_t`, truncating the true dimensions
modulo `2 ^ 32`, and the allocation `Zero(m1r + m2r, m1c + m2c)` uses
`uint32_t` sums, which wrap.  The guard collects the `eigen_assert`s
of the two block writes, in source order: the first write needs
`m1r ≤ R`, `m1c ≤ C` and the assignment needs the true shape of `m1`
to equal the truncated `(m1r, m1c)`; the second write at `(m1r, m1c)`
needs `m1r + m2r ≤ R`, `m1c + m2c ≤ C` (the assert adds `Index`
values, which do not wrap) and the true shape of `m2` to equal
`(m2r, m2c)`.  Any failed assert aborts, modelled `none`.  When the
guard holds, `R = m1r + m2r` and `C = m1c + m2c` exactly (a wrapped
sum is at most the true sum), so the entry function can use the plain
sums. -/
def block_diag2 (m1 m2 : Matrix) : Option Matrix :=
  let m1r := wrap32 m1.rows
  let m1c := wrap32 m1.cols
  let m2r := wrap32 m2.rows
  let m2c := wrap32 m2.cols
  let R := wrap32 (m1r + m2r)
  let C := wrap32 (m1c + m2c)
  if m1.rows = m1r ∧ m1.cols = m1c ∧ m2.rows = m2r ∧ m2.cols = m2c ∧
      m1r ≤ R ∧ m1c ≤ C ∧ m1r + m2r ≤ R ∧ m1c + m2c ≤ C then
    some ⟨R, C, fun i j =>
      if i < m1r ∧ j < m1c then m1.entry i j
      else if m1r ≤ i ∧ m1c ≤ j then m2.entry (i - m1r) (j - m1c)
      else 0⟩
  else none

/-- Ternary `block_diag` (numpycpp.h lines 174-193), with the same
`uint32_t` locals and wrapping sums as the binary form; the chained
`uint32_t` sum `m1r + m2r + m3r` equals `wrap32` of the `Nat` sum.
The guard lists the `eigen_assert`s of the three block writes in
source order; the third write sits at the `uint32_t` offset
`wrap32 (m1r + m2r)`.  When the guard holds, `m1r + m2r ≤ R` forces
`wrap32 (m1r + m2r) = m1r + m2r` and `R = m1r + m2r + m3r` exactly
(and likewise for columns), so the entry function can use the plain
sums. -/
def block_diag3 (m1 m2 m3 : Matrix) : Option Matrix :=
  let m1r := wrap32 m1.rows
  let m1c := wrap32 m1.cols
  let m2r := wrap32 m2.rows
  let m2c := wrap32 m2.cols
  let m3r := wrap32 m3.rows
  let m3c := wrap32 m3.cols
  let R := wrap32 (m1r + m2r + m3r)
  let C := wrap32 (m1c + m2c + m3c)
  if m1.rows = m1r ∧ m1.cols = m1c ∧ m2.rows = m2r ∧ m2.cols = m2c ∧
      m3.rows = m3r ∧ m3.cols = m3c ∧
      m1r ≤ R ∧ m1c ≤ C ∧ m1r + m2r ≤ R ∧ m1c + m2c ≤ C ∧
      wrap32 (m1r + m2r) + m3r ≤ R ∧ wrap32 (m1c + m2c) + m3c ≤ C then
    some ⟨R, C, fun i j =>
      if i < m1r ∧ j < m1c then m1.entry i j
      else if m1r ≤ i ∧ i < m1r + m2r ∧ m1c ≤ j ∧ j < m1c + m2c then
        m2.entry (i - m1r) (j - m1c)
      else if m1r + m2r ≤ i ∧ m1c + m2c ≤ j then
        m3.entry (i - (m1r + m2r)) (j - (m1c + m2c))
      else 0⟩
  else none

/-- The block-diagonal placement described by the specification, with
unbounded arithmetic: the spec-side value against which `block_diag2`
is compared. -/
def blockDiag2Math (m1 m2 : Matrix) : Matrix :=
  ⟨m1.rows + m2.rows, m1.cols + m2.cols, fun i j =>
    if i < m1.rows ∧ j < m1.cols then m1.entry i j
    else if m1.rows ≤ i ∧ m1.cols ≤ j then m2.entry (i - m1.rows) (j - m1.cols)
    else 0⟩

/-- The ternary block-diagonal placement described by the
specification, with unbounded arithmetic. -/
def blockDiag3Math (m1 m2 m3 : Matrix) : Matrix :=
  ⟨m1.rows + m2.rows + m3.rows, m1.cols + m2.cols + m3.cols, fun i j =>
    if i < m1.rows ∧ j < m1.cols then m1.entry i j
    else if m1.rows ≤ i ∧ i < m1.rows + m2.rows ∧ m1.cols ≤ j ∧ j < m1.cols + m2.cols then
      m2.entry (i - m1.rows) (j - m1.cols)
    else if m1.rows + m2.rows ≤ i ∧ m1.cols + m2.cols ≤ j then
      m3.entry (i - (m1.rows + m2.rows)) (j - (m1.cols + m2.cols))
    else 0⟩

/-- `kron` (numpycpp.h lines 208-230).  The locals `m1r, m1c, m2r,
m2c` are `uint32_t`, truncating the true dimensions modulo `2 ^ 32`,
and the allocation `m3(m1r * m2r, m1c * m2c)` uses `uint32_t`
products, which wrap.  The loops run `int` counters `i < m1r`,
`j < m1c` and write `m3.block(i * m2r, j * m2c, m2r, m2c) =
m1(i, j) * m2`, the offsets again being `uint32_t` products.  The
guard collects every way this can fail to produce a result, each
modelled `none`: the final increment of a running `int` counter must
not exceed `INT_MAX` (so a loop that iterates needs its bound below
`2 ^ 31`), each block write asserts that the wrapped offset plus the
block size stays inside the allocated shape, and each block
assignment asserts that the true shape of `m2` equals the truncated
`(m2r, m2c)`.  When the guard holds with `m1r, m1c > 0` the wrapped
products are exact (otherwise the assert of the maximal in-range
block fails), so every entry `(I, J)` of the result is written
exactly once, by the block `(I / m2r, J / m2c)`; when `m1r = 0` or
`m1c = 0` the corresponding result dimension is `0` and the result
carries no entries. -/
def kron (m1 m2 : Matrix) : Option Matrix :=
  let m1r := wrap32 m1.rows
  let m1c := wrap32 m1.cols
  let m2r := wrap32 m2.rows
  let m2c := wrap32 m2.cols
  let R := wrap32 (m1r * m2r)
  let C := wrap32 (m1c * m2c)
  if (m1r = 0 ∨ (m1r < 2 ^ 31 ∧ (m1c = 0 ∨ m1c < 2 ^ 31))) ∧
      (∀ i < m1r, ∀ j < m1c,
        wrap32 (i * m2r) + m2r ≤ R ∧ wrap32 (j * m2c) + m2c ≤ C ∧
        m2.rows = m2r ∧ m2.cols = m2c) then
    some ⟨R, C, fun i j =>
      m1.entry (i / m2r) (j / m2c) * m2.entry (i % m2r) (j % m2c)⟩
  else none

/-- The Kronecker product described by the specification, with
unbounded arithmetic: the spec-side value against which `kron` is
compared. -/
def kronMath (m1 m2 : Matrix) : Matrix :=
  ⟨m1.rows * m2.rows, m1.cols * m2.cols, fun i j =>
    m1.entry (i / m2.rows) (j / m2.cols) * m2.entry (i % m2.rows) (j % m2.cols)⟩

/-- The `1 × 1` matrix holding `a`. -/
def single (a : ℚ) : Matrix := ⟨1, 1, fun _ _ => a⟩

/-- Entrywise scaling `a * B`, the specification-side meaning of the
product of a scalar and a matrix. -/
def scaleMat (a : ℚ) (B : Matrix) : Matrix :=
  ⟨B.rows, B.cols, fun i j => a * B.entry i j⟩

/-- Below the wrap regime (both dimension sums under `2 ^ 32`) every
assert of `block_diag2` passes and the result is the exact
block-diagonal placement. -/
theorem block_diag2_eq_some (m1 m2 : Matrix)
    (hR : m1.rows + m2.rows < 2 ^ 32) (hC : m1.cols + m2.cols < 2 ^ 32) :
    block_diag2 m1 m2 = some (blockDiag2Math m1 m2) := by
  have w1r : wrap32 m1.rows = m1.rows := Nat.mod_eq_of_lt (by omega)
  have w1c : wrap32 m1.cols = m1.cols := Nat.mod_eq_of_lt (by omega)
  have w2r : wrap32 m2.rows = m2.rows := Nat.mod_eq_of_lt (by omega)
  have w2c : wrap32 m2.cols = m2.cols := Nat.mod_eq_of_lt (by omega)
  have wR : wrap32 (m1.rows + m2.rows) = m1.rows + m2.rows := Nat.mod_eq_of_lt hR
  have wC : wrap32 (m1.cols + m2.cols) = m1.cols + m2.cols := Nat.mod_eq_of_lt hC
  simp only [block_diag2, w1r, w1c, w2r, w2c, wR, wC]
  split_ifs with h
  · rfl
  · exact absurd ⟨trivial, trivial, trivial, trivial, Nat.le_add_right _ _,
      Nat.le_add_right _ _, le_refl _, le_refl _⟩ h

/-- Below the wrap regime (both triple dimension sums under `2 ^ 32`)
every assert of `block_diag3` passes and the result is the exact
block-diagonal placement. -/
theorem block_diag3_eq_some (m1 m2 m3 : Matrix)
    (hR : m1.rows + m2.rows + m3.rows < 2 ^ 32)
    (hC : m1.cols + m2.cols + m3.cols < 2 ^ 32) :
    block_diag3 m1 m2 m3 = some (blockDiag3Math m1 m2 m3) := by
  have w1r : wrap32 m1.rows = m1.rows := Nat.mod_eq_of_lt (by omega)
  have w1c : wrap32 m1.cols = m1.cols := Nat.mod_eq_of_lt (by omega)
  have w2r : wrap32 m2.rows = m2.rows := Nat.mod_eq_of_lt (by omega)
  have w2c : wrap32 m2.cols = m2.cols := Nat.mod_eq_of_lt (by omega)
  have w3r : wrap32 m3.rows = m3.rows := Nat.mod_eq_of_lt (by omega)
  have w3c : wrap32 m3.cols = m3.cols := Nat.mod_eq_of_lt (by omega)
  have w12r : wrap32 (m1.rows + m2.rows) = m1.rows + m2.rows := Nat.mod_eq_of_lt (by omega)
  have w12c : wrap32 (m1.cols + m2.cols) = m1.cols + m2.cols := Nat.mod_eq_of_lt (by omega)
  have wR : wrap32 (m1.rows + m2.rows + m3.rows) = m1.rows + m2.rows + m3.rows :=
    Nat.mod_eq_of_lt hR
  have wC : wrap32 (m1.cols + m2.cols + m3.cols) = m1.cols + m2.cols + m3.cols :=
    Nat.mod_eq_of_lt hC
  simp only [block_diag3, w1r, w1c, w2r, w2c, w3r, w3c, w12r, w12c, wR, wC]
  split_ifs with h
  · rfl
  · exact absurd ⟨trivial, trivial, trivial, trivial, trivial, trivial, by omega,
      by omega, by omega, by omega, by omega, by omega⟩ h

/-- Below the wrap regime (first-operand dimensions under `2 ^ 31`
for the `int` loop counters, second-operand dimensions under `2 ^ 32`,
both dimension products under `2 ^ 32`) every assert of `kron` passes,
no counter overflows, and the result is the exact Kronecker
product. -/
theorem kron_eq_some (m1 m2 : Matrix)
    (h1r : m1.rows < 2 ^ 31) (h1c : m1.cols < 2 ^ 31)
    (h2r : m2.rows < 2 ^ 32) (h2c : m2.cols < 2 ^ 32)
    (hR : m1.rows * m2.rows < 2 ^ 32) (hC : m1.cols * m2.cols < 2 ^ 32) :
    kron m1 m2 = some (kronMath m1 m2) := by
  have w1r : wrap32 m1.rows = m1.rows := Nat.mod_eq_of_lt (by omega)
  have w1c : wrap32 m1.cols = m1.cols := Nat.mod_eq_of_lt (by omega)
  have w2r : wrap32 m2.rows = m2.rows := Nat.mod_eq_of_lt h2r
  have w2c : wrap32 m2.cols = m2.cols := Nat.mod_eq_of_lt h2c
  have wR : wrap32 (m1.rows * m2.rows) = m1.rows * m2.rows := Nat.mod_eq_of_lt hR
  have wC : wrap32 (m1.cols * m2.cols) = m1.cols * m2.cols := Nat.mod_eq_of_lt hC
  have hall : ∀ i < m1.rows, ∀ j < m1.cols,
      wrap32 (i * m2.rows) + m2.rows ≤ m1.rows * m2.rows ∧
      wrap32 (j * m2.cols) + m2.cols ≤ m1.cols * m2.cols := by
    intro i hi j hj
    have hir : i * m2.rows ≤ m1.rows * m2.rows := Nat.mul_le_mul_right _ (le_of_lt hi)
    have hjc : j * m2.cols ≤ m1.cols * m2.cols := Nat.mul_le_mul_right _ (le_of_lt hj)
    have wir : wrap32 (i * m2.rows) = i * m2.rows := Nat.mod_eq_of_lt (lt_of_le_of_lt hir hR)
    have wjc : wrap32 (j * m2.cols) = j * m2.cols := Nat.mod_eq_of_lt (lt_of_le_of_lt hjc hC)
    constructor
    · rw [wir, ← Nat.succ_mul]
      exact Nat.mul_le_mul_right _ hi
    · rw [wjc, ← Nat.succ_mul]
      exact Nat.mul_le_mul_right _ hj
  simp only [kron, w1r, w1c, w2r, w2c, wR, wC]
  split_ifs with h
  · rfl
  · exact absurd ⟨Or.inr ⟨h1r, Or.inr h1c⟩, fun i hi j hj =>
      ⟨(hall i hi j hj).1, (hall i hi j hj).2, trivial, trivial⟩⟩ h

/-- Scenario S1 of the specification: stacking `[[1,2],[3,4]]` on top
of `[[5,6]]` yields `[[1,2],[3,4],[5,6]]`. -/
theorem sanity_S1 :
    eqvSome (vstack (ofRows [[1, 2], [3, 4]] 2 2) (ofRows [[5, 6]] 1 2))
      (ofRows [[1, 2], [3, 4], [5, 6]] 3 2) := by
  refine ⟨_, rfl, rfl, rfl, ?_⟩
  intro i hi j hj
  have hi3 : i < 3 := hi
  have hj2 : j < 2 := hj
  interval_cases i <;> interval_cases j <;> norm_num [ofRows]

/-- Scenario S2 of the specification: `hstack` of a `2 × 0` matrix and
`[[1],[2]]` yields `[[1],[2]]`. -/
theorem sanity_S2 :
    eqvSome (hstack (ofRows [] 2 0) (ofRows [[1], [2]] 2 1))
      (ofRows [[1], [2]] 2 1) := by
  exact ⟨_, rfl, Matrix.eqv_refl _⟩

/-- Scenario S3 of the specification: binary `block_diag` of
`[[1,2],[3,4]]` and `[[5]]` yields `[[1,2,0],[3,4,0],[0,0,5]]`. -/
theorem sanity_S3 :
    eqvSome (block_diag2 (ofRows [[1, 2], [3, 4]] 2 2) (ofRows [[5]] 1 1))
      (ofRows [[1, 2, 0], [3, 4, 0], [0, 0, 5]] 3 3) := by
  refine ⟨blockDiag2Math _ _, block_diag2_eq_some _ _ (by decide) (by decide),
    rfl, rfl, ?_⟩
  intro i hi j hj
  have hi3 : i < 3 := hi
  have hj3 : j < 3 := hj
  interval_cases i <;> interval_cases j <;> norm_num [blockDiag2Math, ofRows]

/-- Scenario S4 of the specification: ternary `block_diag` of `[[1]]`,
`[[2,3],[4,5]]` and `[[6]]`. -/
theorem sanity_S4 :
    eqvSome (block_diag3 (ofRows [[1]] 1 1) (ofRows [[2, 3], [4, 5]] 2 2)
        (ofRows [[6]] 1 1))
      (ofRows [[1, 0, 0, 0], [0, 2, 3, 0], [0, 4, 5, 0], [0, 0, 0, 6]] 4 4) := by
  refine ⟨blockDiag3Math _ _ _, block_diag3_eq_some _ _ _ (by decide) (by decide),
    rfl, rfl, ?_⟩
  intro i hi j hj
  have hi4 : i < 4 := hi
  have hj4 : j < 4 := hj
  interval_cases i <;> interval_cases j <;> norm_num [blockDiag3Math, ofRows]

/-- Scenario S5 of the specification: the Kronecker product of
`[[1,2],[3,4]]` and `[[0,1],[1,0]]`. -/
theorem sanity_S5 :
    eqvSome (kron (ofRows [[1, 2], [3, 4]] 2 2) (ofRows [[0, 1], [1, 0]] 2 2))
      (ofRows [[0, 1, 0, 2], [1, 0, 2, 0], [0, 3, 0, 4], [3, 0, 4, 0]] 4 4) := by
  refine ⟨kronMath _ _, kron_eq_some _ _ (by decide) (by decide) (by decide) (by decide)
    (by decide) (by decide), rfl, rfl, ?_⟩
  intro i hi j hj
  have hi4 : i < 4 := hi
  have hj4 : j < 4 := hj
  interval_cases i <;> interval_cases j <;> norm_num [kronMath, ofRows]

/-- Scenario S6 of the specification: `isdiag` accepts
`[[2,0,0],[0,3,0],[0,0,4]]`, rejects `[[2,0,0],[0,3,1],[0,0,4]]` and
rejects the non-square `[[1,0],[0,1],[0,0]]`. -/
theorem sanity_S6 :
    isdiag (ofRows [[2, 0, 0], [0, 3, 0], [0, 0, 4]] 3 3) = true ∧
    isdiag (ofRows [[2, 0, 0], [0, 3, 1], [0, 0, 4]] 3 3) = false ∧
    isdiag (ofRows [[1, 0], [0, 1], [0, 0]] 3 2) = false := by
  refine ⟨?_, ?_, ?_⟩ <;>
    norm_num [isdiag, diagAsDiagonal, Matrix.sub, Matrix.sumEntries, ofRows,
      Finset.sum_range_succ, abs_le, abs_of_nonneg]

/-- Concrete matrices reused by several witnesses below. -/
def mA : Matrix := ofRows [[1, 2], [3, 4]] 2 2

def mB : Matrix := ofRows [[0, 1], [1, 0]] 2 2

def m5 : Matrix := ofRows [[5]] 1 1

def m6 : Matrix := ofRows [[6]] 1 1

def e02 : Matrix := ofRows [] 0 2

def f20 : Matrix := ofRows [] 2 0

/-- A `2 ^ 20 × 1` matrix; paired with `big12` below it exhibits the
`uint32_t` wrap in `kron`: the dimension product
`2 ^ 20 * 2 ^ 12 = 2 ^ 32` truncates to `0`. -/
def big20 : Matrix := ⟨2 ^ 20, 1, fun _ _ => 1⟩

/-- A `2 ^ 12 × 1` matrix, the second operand of the wrap example. -/
def big12 : Matrix := ⟨2 ^ 12, 1, fun _ _ => 1⟩

/-- C1 counterexample: contrary to the claimed universal shape law
and never-fails, `kron` of a `2 ^ 20 × 1` matrix and a `2 ^ 12 × 1`
matrix produces no result at all: the `uint32_t` row product
`2 ^ 20 * 2 ^ 12` wraps to `0`, a `0 × 1` matrix is allocated, and
the first block write fails its `eigen_assert` (the claim instead
promises a `2 ^ 32 × 1` result). -/
theorem kron_wrap_aborts : kron big20 big12 = none := by
  simp only [kron]
  split_ifs with h
  · exfalso
    obtain ⟨-, hall⟩ := h
    obtain ⟨h1, -, -, -⟩ :=
      hall 0 (by norm_num [big20, wrap32]) 0 (by norm_num [big20, wrap32])
    norm_num [big20, big12, wrap32] at h1
  · rfl

/-- C1 amended: below the `uint32_t` wrap regime — first-operand
dimensions under `2 ^ 31` (the `int` loop counters), second-operand
dimensions under `2 ^ 32`, both dimension products under `2 ^ 32` —
`kron A B` succeeds, the result has shape
`(rows A * rows B) × (cols A * cols B)` (so a zero dimension of
either operand gives the corresponding zero dimension, with no
entries), and the `p × q` block at `(i * rows B, j * cols B)` equals
`A[i,j] * B`. -/
theorem kron_spec (A B : Matrix)
    (hAr : A.rows < 2 ^ 31) (hAc : A.cols < 2 ^ 31)
    (hBr : B.rows < 2 ^ 32) (hBc : B.cols < 2 ^ 32)
    (hR : A.rows * B.rows < 2 ^ 32) (hC : A.cols * B.cols < 2 ^ 32) :
    eqvSome (kron A B) (kronMath A B) ∧
    (kronMath A B).rows = A.rows * B.rows ∧ (kronMath A B).cols = A.cols * B.cols ∧
    ∀ i < A.rows, ∀ j < A.cols, ∀ p < B.rows, ∀ q < B.cols,
      (kronMath A B).entry (i * B.rows + p) (j * B.cols + q) = A.entry i j * B.entry p q := by
  refine ⟨⟨kronMath A B, kron_eq_some A B hAr hAc hBr hBc hR hC, Matrix.eqv_refl _⟩,
    rfl, rfl, ?_⟩
  intro i hi j hj p hp q hq
  have hbr : 0 < B.rows := Nat.lt_of_le_of_lt (Nat.zero_le p) hp
  have hbc : 0 < B.cols := Nat.lt_of_le_of_lt (Nat.zero_le q) hq
  have e1 : (i * B.rows + p) / B.rows = i := by
    rw [Nat.mul_comm, Nat.mul_add_div hbr, Nat.div_eq_of_lt hp, Nat.add_zero]
  have e2 : (i * B.rows + p) % B.rows = p := by
    rw [Nat.mul_comm, Nat.mul_add_mod, Nat.mod_eq_of_lt hp]
  have e3 : (j * B.cols + q) / B.cols = j := by
    rw [Nat.mul_comm, Nat.mul_add_div hbc, Nat.div_eq_of_lt hq, Nat.add_zero]
  have e4 : (j * B.cols + q) % B.cols = q := by
    rw [Nat.mul_comm, Nat.mul_add_mod, Nat.mod_eq_of_lt hq]
  show A.entry ((i * B.rows + p) / B.rows) ((j * B.cols + q) / B.cols) *
      B.entry ((i * B.rows + p) % B.rows) ((j * B.cols + q) % B.cols) =
    A.entry i j * B.entry p q
  rw [e1, e2, e3, e4]

theorem kron_spec_witness :
    eqvSome (kron mA mB) (kronMath mA mB) ∧
    (kronMath mA mB).entry (1 * mB.rows + 0) (0 * mB.cols + 1) =
      mA.entry 1 0 * mB.entry 0 1 :=
  ⟨(kron_spec mA mB (by decide) (by decide) (by decide) (by decide)
      (by decide) (by decide)).1,
   (kron_spec mA mB (by decide) (by decide) (by decide) (by decide)
      (by decide) (by decide)).2.2.2 1 (by decide) 0 (by decide) 0 (by decide) 1 (by decide)⟩

/-- A square matrix whose only off-diagonal entries are `+1` at
`(0, 1)` and `-1` at `(0, 2)`: the residuals cancel in the signed sum
used by `isdiag`. -/
def cancelEx : Matrix := ofRows [[5, 1, -1], [0, 6, 0], [0, 0, 7]] 3 3

/-- C2: `isdiag` returns `false` on non-square input, and on square
input returns `true` iff the absolute value of the signed sum of the
entries of `M - D` (with `D` the diagonal part of `M`) is below
`1 / 100000`; in particular the matrix with cancelling `+1` and `-1`
off-diagonal residuals passes. -/
theorem isdiag_spec (M : Matrix) :
    (M.rows ≠ M.cols → isdiag M = false) ∧
    (M.rows = M.cols →
      (isdiag M = true ↔ |((diagAsDiagonal M).sub M).sumEntries| < 1 / 100000)) ∧
    isdiag cancelEx = true := by
  refine ⟨?_, ?_, ?_⟩
  · intro h
    unfold isdiag
    rw [if_pos (Ne.symm h)]
  · intro h
    have hc : ¬(M.cols ≠ M.rows) := fun hne => hne h.symm
    unfold isdiag
    rw [if_neg hc]
    rcases lt_or_le |((diagAsDiagonal M).sub M).sumEntries| (1 / 100000) with hlt | hge
    · rw [if_neg (not_le.mpr hlt)]
      exact iff_of_true rfl hlt
    · rw [if_pos hge]
      exact iff_of_false (by simp) (not_lt.mpr hge)
  · norm_num [isdiag, cancelEx, ofRows, diagAsDiagonal, Matrix.sub, Matrix.sumEntries,
      Finset.sum_range_succ]

theorem isdiag_spec_witness :
    isdiag (ofRows [[1, 0], [0, 1], [0, 0]] 3 2) = false ∧
    isdiag (ofRows [[2, 0, 0], [0, 3, 0], [0, 0, 4]] 3 3) = true :=
  ⟨(isdiag_spec (ofRows [[1, 0], [0, 1], [0, 0]] 3 2)).1 (by decide),
   ((isdiag_spec (ofRows [[2, 0, 0], [0, 3, 0], [0, 0, 4]] 3 3)).2.1 rfl).mpr
     (by norm_num [ofRows, diagAsDiagonal, Matrix.sub, Matrix.sumEntries,
       Finset.sum_range_succ])⟩

/-- The `0 × 0` matrix. -/
def empty00 : Matrix := ⟨0, 0, fun _ _ => 0⟩

/-- C10: `isdiag` on the `0 × 0` matrix returns `true`: it is square,
the residual sum is empty and hence `0`, and `0 < 1 / 100000`. -/
theorem isdiag_empty00 : isdiag empty00 = true := by
  norm_num [isdiag, empty00, diagAsDiagonal, Matrix.sub, Matrix.sumEntries]

/-- C3 counterexample: the claim says that `reshape(M, r, c)` with
`r * c ≠ rows * cols` fails with a recoverable `shape_mismatch` error,
but reshaping the `1 × 2` matrix `[[1, 2]]` to `1 × 1` (with
`1 * 1 ≠ 1 * 2`) succeeds: the source performs no size check, the map
read is in bounds, and a `1 × 1` matrix is silently returned. -/
theorem reshape_mismatch_no_error :
    (reshape (ofRows [[1, 2]] 1 2) 1 1).isSome = true := rfl

/-- C3 amended: `reshape` performs no size validation and raises no
error: whenever `r * c ≤ rows * cols` it succeeds, returning the first
`r * c` entries of the column-major buffer (silently truncating when
`r * c` is smaller), and whenever `r * c > rows * cols` it reads past
the end of the buffer, which is undefined behaviour (modelled `none`),
not a recoverable `shape_mismatch` error. -/
theorem reshape_no_validation (M : Matrix) (r c : Nat) :
    (r * c ≤ M.rows * M.cols →
      reshape M r c =
        some ⟨r, c, fun i j => M.entry ((j * r + i) % M.rows) ((j * r + i) / M.rows)⟩) ∧
    (M.rows * M.cols < r * c → reshape M r c = none) := by
  constructor
  · intro h
    unfold reshape
    rw [if_pos h]
  · intro h
    unfold reshape
    rw [if_neg (not_le.mpr h)]

theorem reshape_no_validation_witness :
    reshape (ofRows [[1, 2]] 1 2) 3 1 = none :=
  (reshape_no_validation (ofRows [[1, 2]] 1 2) 3 1).2 (by decide)

/-- `reshape(reshape(M, r, c), rows M, cols M)`, the composite of the
round-trip claim. -/
def reshapeTwice (M : Matrix) (r c : Nat) : Option Matrix :=
  match reshape M r c with
  | some K => reshape K M.rows M.cols
  | none => none

/-- C7: when `r * c = rows * cols`, reshaping to `r × c` and back to
the original shape succeeds and returns a matrix equal to `M`. -/
theorem reshape_roundtrip (M : Matrix) (r c : Nat) (h : r * c = M.rows * M.cols) :
    eqvSome (reshapeTwice M r c) M := by
  have h1 : r * c ≤ M.rows * M.cols := Nat.le_of_eq h
  set K : Matrix :=
    ⟨r, c, fun i j => M.entry ((j * r + i) % M.rows) ((j * r + i) / M.rows)⟩ with hK
  have e1 : reshape M r c = some K := by
    unfold reshape
    rw [if_pos h1]
  have h2 : M.rows * M.cols ≤ K.rows * K.cols := Nat.le_of_eq h.symm
  have e2 : reshape K M.rows M.cols =
      some ⟨M.rows, M.cols, fun i j =>
        K.entry ((j * M.rows + i) % K.rows) ((j * M.rows + i) / K.rows)⟩ := by
    unfold reshape
    rw [if_pos h2]
  refine ⟨⟨M.rows, M.cols, fun i j =>
      K.entry ((j * M.rows + i) % K.rows) ((j * M.rows + i) / K.rows)⟩, ?_, rfl, rfl, ?_⟩
  · unfold reshapeTwice
    rw [e1]
    exact e2
  · intro i hi j hj
    have hMr : 0 < M.rows := Nat.lt_of_le_of_lt (Nat.zero_le i) hi
    show M.entry ((((j * M.rows + i) / r) * r + (j * M.rows + i) % r) % M.rows)
        ((((j * M.rows + i) / r) * r + (j * M.rows + i) % r) / M.rows) = M.entry i j
    rw [Nat.div_add_mod', Nat.mul_comm j M.rows, Nat.mul_add_mod, Nat.mod_eq_of_lt hi,
      Nat.mul_add_div hMr, Nat.div_eq_of_lt hi, Nat.add_zero]

theorem reshape_roundtrip_witness :
    eqvSome (reshapeTwice mA 1 4) mA :=
  reshape_roundtrip mA 1 4 (by decide)

/-- C4: with both operands non-empty along the stacking axis and
mismatched cross-axis counts, `vstack` (resp. `hstack`) produces no
result: the comma-initializer cannot tile the allocated matrix and an
`eigen_assert` fails (modelled `none`; the source defines no error
value, so the failure is an assertion abort, not a thrown error). -/
theorem stack_mismatch_fails (A B : Matrix) :
    (0 < A.rows → 0 < B.rows → A.cols ≠ B.cols → vstack A B = none) ∧
    (0 < A.cols → 0 < B.cols → A.rows ≠ B.rows → hstack A B = none) := by
  constructor
  · intro hA hB hne
    unfold vstack commaInit2
    split_ifs <;> first | rfl | (exfalso; omega)
  · intro hA hB hne
    unfold hstack commaInit2
    split_ifs <;> first | rfl | (exfalso; omega)

theorem stack_mismatch_fails_witness :
    vstack (ofRows [[1, 2]] 1 2) (ofRows [[1, 2, 3]] 1 3) = none ∧
    hstack (ofRows [[1], [2]] 2 1) (ofRows [[1]] 1 1) = none :=
  ⟨(stack_mismatch_fails (ofRows [[1, 2]] 1 2) (ofRows [[1, 2, 3]] 1 3)).1
      (by decide) (by decide) (by decide),
   (stack_mismatch_fails (ofRows [[1], [2]] 2 1) (ofRows [[1]] 1 1)).2
      (by decide) (by decide) (by decide)⟩

/-- C6: an operand with zero rows and matching columns is absorbed by
`vstack` on either side, and dually an operand with zero columns and
matching rows is absorbed by `hstack`. -/
theorem stack_empty_absorb (M E F : Matrix) :
    (E.rows = 0 → E.cols = M.cols →
      vstack E M = some M ∧ eqvSome (vstack M E) M) ∧
    (F.cols = 0 → F.rows = M.rows →
      hstack F M = some M ∧ eqvSome (hstack M F) M) := by
  constructor
  · intro hR hC
    constructor
    · unfold vstack
      rw [if_pos hR]
    · by_cases hM : M.rows = 0
      · refine ⟨E, ?_, ?_⟩
        · unfold vstack
          rw [if_pos hM]
        · exact ⟨by rw [hR, hM], hC, by
            intro i hi j hj
            rw [hR] at hi
            exact absurd hi (Nat.not_lt_zero i)⟩
      · refine ⟨M, ?_, Matrix.eqv_refl M⟩
        unfold vstack
        rw [if_neg hM, if_pos hR]
  · intro hC hR
    constructor
    · unfold hstack
      rw [if_pos hC]
    · by_cases hM : M.cols = 0
      · refine ⟨F, ?_, ?_⟩
        · unfold hstack
          rw [if_pos hM]
        · exact ⟨hR, by rw [hC, hM], by
            intro i hi j hj
            rw [hC] at hj
            exact absurd hj (Nat.not_lt_zero j)⟩
      · refine ⟨M, ?_, Matrix.eqv_refl M⟩
        unfold hstack
        rw [if_neg hM, if_pos hC]

theorem stack_empty_absorb_witness :
    (vstack e02 mA = some mA ∧ eqvSome (vstack mA e02) mA) ∧
    (hstack f20 mA = some mA ∧ eqvSome (hstack mA f20) mA) :=
  ⟨(stack_empty_absorb mA e02 f20).1 rfl rfl,
   (stack_empty_absorb mA e02 f20).2 rfl rfl⟩

/-- C9: when the first operand of `vstack` has zero rows the second is
returned with no check of the column counts at all (and dually for
`hstack`); the second operand is likewise absorbed when it is the
empty one (the first then being non-empty, since the emptiness test
on the first operand runs first). -/
theorem stack_absorb_unchecked (A B : Matrix) :
    (A.rows = 0 → vstack A B = some B) ∧
    (A.rows ≠ 0 → B.rows = 0 → vstack A B = some A) ∧
    (A.cols = 0 → hstack A B = some B) ∧
    (A.cols ≠ 0 → B.cols = 0 → hstack A B = some A) := by
  refine ⟨?_, ?_, ?_, ?_⟩
  · intro h
    unfold vstack
    rw [if_pos h]
  · intro h1 h2
    unfold vstack
    rw [if_neg h1, if_pos h2]
  · intro h
    unfold hstack
    rw [if_pos h]
  · intro h1 h2
    unfold hstack
    rw [if_neg h1, if_pos h2]

theorem stack_absorb_unchecked_witness :
    vstack (ofRows [] 0 2) (ofRows [[1, 2, 3]] 1 3) = some (ofRows [[1, 2, 3]] 1 3) ∧
    hstack (ofRows [[1, 2]] 1 2) (ofRows [] 5 0) = some (ofRows [[1, 2]] 1 2) :=
  ⟨(stack_absorb_unchecked (ofRows [] 0 2) (ofRows [[1, 2, 3]] 1 3)).1 rfl,
   (stack_absorb_unchecked (ofRows [[1, 2]] 1 2) (ofRows [] 5 0)).2.2.2 (by decide) rfl⟩

/-- A `2 ^ 31 × 1` matrix; two of them exhibit the `uint32_t` wrap in
`block_diag`: the row sum `2 ^ 31 + 2 ^ 31 = 2 ^ 32` truncates to
`0`. -/
def big31 : Matrix := ⟨2 ^ 31, 1, fun _ _ => 1⟩

/-- C5 counterexample: contrary to the claimed universal shape law
and never-fails, binary `block_diag` of two `2 ^ 31 × 1` matrices
produces no result at all: the `uint32_t` row sum `2 ^ 31 + 2 ^ 31`
wraps to `0`, a `0 × 2` zero matrix is allocated, and the first block
write fails its `eigen_assert` (the claim instead promises a
`2 ^ 32 × 2` result). -/
theorem block_diag_wrap_aborts : block_diag2 big31 big31 = none := by
  simp only [block_diag2]
  split_ifs with h
  · exfalso
    obtain ⟨-, -, -, -, h5, -⟩ := h
    norm_num [big31, wrap32] at h5
  · rfl

/-- C5 amended: below the `uint32_t` wrap regime — dimension sums
under `2 ^ 32` — binary and ternary `block_diag` succeed and return
the matrix whose shape is the sum of the operand shapes, in which
each operand occupies the diagonal block at the offset given by the
partial sums of the preceding shapes and every in-range entry outside
those blocks is exactly zero (operands with zero rows or columns
included). -/
theorem block_diag_spec (m1 m2 m3 : Matrix)
    (hR2 : m1.rows + m2.rows < 2 ^ 32) (hC2 : m1.cols + m2.cols < 2 ^ 32)
    (hR3 : m1.rows + m2.rows + m3.rows < 2 ^ 32)
    (hC3 : m1.cols + m2.cols + m3.cols < 2 ^ 32) :
    block_diag2 m1 m2 = some (blockDiag2Math m1 m2) ∧
    block_diag3 m1 m2 m3 = some (blockDiag3Math m1 m2 m3) ∧
    ((blockDiag2Math m1 m2).rows = m1.rows + m2.rows ∧
      (blockDiag2Math m1 m2).cols = m1.cols + m2.cols) ∧
    (∀ i < m1.rows, ∀ j < m1.cols, (blockDiag2Math m1 m2).entry i j = m1.entry i j) ∧
    (∀ i < m2.rows, ∀ j < m2.cols,
      (blockDiag2Math m1 m2).entry (m1.rows + i) (m1.cols + j) = m2.entry i j) ∧
    (∀ i < m1.rows + m2.rows, ∀ j < m1.cols + m2.cols,
      ¬(i < m1.rows ∧ j < m1.cols) → ¬(m1.rows ≤ i ∧ m1.cols ≤ j) →
      (blockDiag2Math m1 m2).entry i j = 0) ∧
    ((blockDiag3Math m1 m2 m3).rows = m1.rows + m2.rows + m3.rows ∧
      (blockDiag3Math m1 m2 m3).cols = m1.cols + m2.cols + m3.cols) ∧
    (∀ i < m1.rows, ∀ j < m1.cols, (blockDiag3Math m1 m2 m3).entry i j = m1.entry i j) ∧
    (∀ i < m2.rows, ∀ j < m2.cols,
      (blockDiag3Math m1 m2 m3).entry (m1.rows + i) (m1.cols + j) = m2.entry i j) ∧
    (∀ i < m3.rows, ∀ j < m3.cols,
      (blockDiag3Math m1 m2 m3).entry (m1.rows + m2.rows + i) (m1.cols + m2.cols + j) =
        m3.entry i j) ∧
    (∀ i < m1.rows + m2.rows + m3.rows, ∀ j < m1.cols + m2.cols + m3.cols,
      ¬(i < m1.rows ∧ j < m1.cols) →
      ¬(m1.rows ≤ i ∧ i < m1.rows + m2.rows ∧ m1.cols ≤ j ∧ j < m1.cols + m2.cols) →
      ¬(m1.rows + m2.rows ≤ i ∧ m1.cols + m2.cols ≤ j) →
      (blockDiag3Math m1 m2 m3).entry i j = 0) := by
  refine ⟨block_diag2_eq_some m1 m2 hR2 hC2, block_diag3_eq_some m1 m2 m3 hR3 hC3,
    ⟨rfl, rfl⟩, ?_, ?_, ?_, ⟨rfl, rfl⟩, ?_, ?_, ?_, ?_⟩
  · intro i hi j hj
    dsimp only [blockDiag2Math]
    rw [if_pos ⟨hi, hj⟩]
  · intro i hi j hj
    dsimp only [blockDiag2Math]
    rw [if_neg (by omega), if_pos (by omega)]
    rw [Nat.add_sub_cancel_left, Nat.add_sub_cancel_left]
  · intro i hi j hj h1 h2
    dsimp only [blockDiag2Math]
    rw [if_neg h1, if_neg h2]
  · intro i hi j hj
    dsimp only [blockDiag3Math]
    rw [if_pos ⟨hi, hj⟩]
  · intro i hi j hj
    dsimp only [blockDiag3Math]
    rw [if_neg (by omega), if_pos (by omega)]
    rw [Nat.add_sub_cancel_left, Nat.add_sub_cancel_left]
  · intro i hi j hj
    dsimp only [blockDiag3Math]
    rw [if_neg (by omega), if_neg (by omega), if_pos (by omega)]
    rw [Nat.add_sub_cancel_left, Nat.add_sub_cancel_left]
  · intro i hi j hj h1 h2 h3
    dsimp only [blockDiag3Math]
    rw [if_neg h1, if_neg h2, if_neg h3]

theorem block_diag_spec_witness :
    block_diag2 mA m5 = some (blockDiag2Math mA m5) ∧
    (blockDiag2Math mA m5).entry (mA.rows + 0) (mA.cols + 0) = m5.entry 0 0 ∧
    (blockDiag3Math mA m5 m6).entry (mA.rows + m5.rows + 0) (mA.cols + m5.cols + 0) =
      m6.entry 0 0 :=
  ⟨(block_diag_spec mA m5 m6 (by decide) (by decide) (by decide) (by decide)).1,
   (block_diag_spec mA m5 m6 (by decide) (by decide) (by decide)
      (by decide)).2.2.2.2.1 0 (by decide) 0 (by decide),
   (block_diag_spec mA m5 m6 (by decide) (by decide) (by decide)
      (by decide)).2.2.2.2.2.2.2.2.2.1 0 (by decide) 0 (by decide)⟩

/-- A `2 ^ 32 × 1` matrix: its row count does not survive the
`uint32_t` truncation in `kron`. -/
def b32 : Matrix := ⟨2 ^ 32, 1, fun _ _ => 0⟩

/-- C8 counterexample: contrary to the claim, `kron [[1]] B` is not
`1 * B` for every `B`: for the `2 ^ 32 × 1` matrix `b32` the local
`m2r` truncates its row count to `0`, so the single block write
assigns a `2 ^ 32 × 1` operand to a `0 × 1` block, the shape
`eigen_assert` fails, and no result is produced. -/
theorem kron_scalar_wrap_fails : ¬ eqvSome (kron (single 1) b32) (scaleMat 1 b32) := by
  have hnone : kron (single 1) b32 = none := by
    simp only [kron]
    split_ifs with h
    · exfalso
      obtain ⟨-, hall⟩ := h
      obtain ⟨-, -, h3, -⟩ :=
        hall 0 (by norm_num [single, wrap32]) 0 (by norm_num [single, wrap32])
      norm_num [b32, wrap32] at h3
    · rfl
  rintro ⟨K, hK, -⟩
  rw [hnone] at hK
  exact Option.noConfusion hK

/-- C8 amended: the Kronecker product of the `1 × 1` matrix `[[a]]`
with `B` is the entrywise scaling `a * B` for every `B` whose
dimensions are below `2 ^ 32` (so the `uint32_t` locals do not
truncate them), and the Kronecker product of `A` with `[[1]]` is `A`
for every `A` whose dimensions are below `2 ^ 31` (the `int` loop
counters). -/
theorem kron_scalar (a : ℚ) (A B : Matrix)
    (hBr : B.rows < 2 ^ 32) (hBc : B.cols < 2 ^ 32)
    (hAr : A.rows < 2 ^ 31) (hAc : A.cols < 2 ^ 31) :
    eqvSome (kron (single a) B) (scaleMat a B) ∧ eqvSome (kron A (single 1)) A := by
  constructor
  · refine ⟨kronMath (single a) B,
      kron_eq_some (single a) B (by norm_num [single]) (by norm_num [single]) hBr hBc
        (by simpa [single] using hBr) (by simpa [single] using hBc), ?_⟩
    refine ⟨Nat.one_mul B.rows, Nat.one_mul B.cols, ?_⟩
    intro i hi j hj
    have hi2 : i < B.rows := by simpa [kronMath, single] using hi
    have hj2 : j < B.cols := by simpa [kronMath, single] using hj
    show (single a).entry (i / B.rows) (j / B.cols) *
        B.entry (i % B.rows) (j % B.cols) = a * B.entry i j
    rw [Nat.mod_eq_of_lt hi2, Nat.mod_eq_of_lt hj2]
    rfl
  · refine ⟨kronMath A (single 1),
      kron_eq_some A (single 1) hAr hAc (by norm_num [single]) (by norm_num [single])
        (by simpa [single] using lt_trans hAr (by norm_num))
        (by simpa [single] using lt_trans hAc (by norm_num)), ?_⟩
    refine ⟨Nat.mul_one A.rows, Nat.mul_one A.cols, ?_⟩
    intro i hi j hj
    show A.entry (i / (single 1).rows) (j / (single 1).cols) *
        (single 1).entry (i % (single 1).rows) (j % (single 1).cols) = A.entry i j
    show A.entry (i / 1) (j / 1) * 1 = A.entry i j
    rw [Nat.div_one, Nat.div_one, mul_one]

theorem kron_scalar_witness :
    eqvSome (kron (single 2) mB) (scaleMat 2 mB) ∧ eqvSome (kron mA (single 1)) mA :=
  kron_scalar 2 mA mB (by decide) (by decide) (by decide) (by decide)

end Numpycpp
